import Mathlib

/-!
Shallow embedding of the file_download crate (checksum-verified batch file
downloader) and verification of its specification claims.

Sources embedded:
- src/iter_chunk.rs, src/iter_chunck.rs : IterChunk/IterChunck chunking iterator
- src/hash/binary_repr.rs, src/lib.rs   : BinaryRepr digest representations
- src/http_client/mod.rs                : tmp-file derivation, checksum check,
                                          rename/promotion, batch aggregation
- src/curl_async/http11.rs              : DlHttp1Future poll state machine
- src/curl_async/http2.rs               : DlHttp2Future poll state machine
- src/lib.rs                            : DownloadFolder::add_file path re-rooting

External collaborators (the hex / base64 crates, the md5 crate, the
filesystem and the curl transfer engine) are modelled as the standard codecs
they implement, or as oracle parameters, as noted at each definition.
-/

namespace FileDownload

instance exceptDecEq {ε α : Type} [DecidableEq ε] [DecidableEq α] :
    DecidableEq (Except ε α) := fun x y =>
  match x, y with
  | .ok a, .ok b =>
    match decEq a b with
    | isTrue h => isTrue (h ▸ rfl)
    | isFalse h => isFalse fun hh => h (Except.ok.inj hh)
  | .error a, .error b =>
    match decEq a b with
    | isTrue h => isTrue (h ▸ rfl)
    | isFalse h => isFalse fun hh => h (Except.error.inj hh)
  | .ok _, .error _ => isFalse fun hh => Except.noConfusion hh
  | .error _, .ok _ => isFalse fun hh => Except.noConfusion hh

/-! ## IterChunk (src/iter_chunk.rs lines 34-46, src/iter_chunck.rs lines 36-48)

The underlying iterator is modelled as the list of elements it has yet to
yield.  `IterChunk::next` pulls up to `size` elements: the loop body pulls one
element per iteration `i in 0..size`; if the very first pull (`i == 0`) finds
the iterator exhausted it returns `None`, otherwise it stops early and returns
the collected vector. -/

/-- The inner loop of `IterChunk::next` after the first successful pull:
pull up to `n` further elements, returning the collected prefix and the rest
of the underlying iterator. -/
def takeUpTo {α : Type} : Nat → List α → List α × List α
  | 0, l => ([], l)
  | _ + 1, [] => ([], [])
  | n + 1, x :: rest =>
    let p := takeUpTo n rest
    (x :: p.1, p.2)

/-- `IterChunk::next` (= `IterChunck::next`, the two files are identical):
returns the yielded chunk (`none` = the iterator returned `None`) together
with the new state of the underlying iterator. -/
def iterChunkNext {α : Type} (size : Nat) (it : List α) :
    Option (List α) × List α :=
  if size = 0 then (some [], it)
  else
    match it with
    | [] => (none, [])
    | x :: rest =>
      let p := takeUpTo (size - 1) rest
      (some (x :: p.1), p.2)

/-- Exhaustively iterating `IterChunk::next` with chunk size `n ≥ 1` yields
this list of chunks (the theorems below tie each step back to
`iterChunkNext`; `takeUpTo` is proved equal to `take`/`drop`). -/
def chunkList {α : Type} (n : Nat) : List α → List (List α)
  | [] => []
  | x :: rest => (x :: rest.take (n - 1)) :: chunkList n (rest.drop (n - 1))
termination_by l => l.length
decreasing_by
  simp only [List.length_drop, List.length_cons]
  omega

/-! ## BinaryRepr (src/hash/binary_repr.rs)

Bytes (`u8`) are modelled as `Nat` with the invariant `< 256` stated where it
matters; no arithmetic in the embedded code can overflow a `u8` (sums of
distinct powers `2^i`, `i < 8`, are at most 255). -/

/-- src/hash/binary_repr_format: the tag of the textual digest representation. -/
inductive BinaryReprFormat : Type
  | hex
  | base64
  | bin
deriving DecidableEq

/-- Error of the codecs / `BinaryRepr::new`; the payloads of the Rust error
types are irrelevant to the claims and collapsed. -/
inductive BinaryReprError : Type
  | mk
deriving DecidableEq

/-- Lowercase hex digit of the hex crate's `encode` (external collaborator:
standard hex codec). -/
def hexc (n : Nat) : Char :=
  if n < 10 then Char.ofNat (Char.toNat '0' + n)
  else Char.ofNat (Char.toNat 'a' + (n - 10))

/-- `hex::decode` digit value: accepts both lowercase and uppercase. -/
def hexv (c : Char) : Option Nat :=
  if '0' ≤ c ∧ c ≤ '9' then some (c.toNat - Char.toNat '0')
  else if 'a' ≤ c ∧ c ≤ 'f' then some (10 + (c.toNat - Char.toNat 'a'))
  else if 'A' ≤ c ∧ c ≤ 'F' then some (10 + (c.toNat - Char.toNat 'A'))
  else none

/-- `hex::encode`: two digits per byte, high nibble first. -/
def hexEncode (v : List Nat) : List Char :=
  v.flatMap fun b => [hexc (b / 16), hexc (b % 16)]

/-- `hex::decode`: pairs of hex digits; odd length or a non-digit is an error. -/
def hexDecode : List Char → Except BinaryReprError (List Nat)
  | [] => .ok []
  | [_] => .error .mk
  | c0 :: c1 :: rest =>
    match hexv c0, hexv c1 with
    | some h, some l => (hexDecode rest).map fun v => (h * 16 + l) :: v
    | _, _ => .error .mk

/-- Standard base64 alphabet, sextet to character (base64 crate, `STANDARD`
engine with padding; external collaborator: standard base64 codec). -/
def b64c (n : Nat) : Char :=
  if n < 26 then Char.ofNat (Char.toNat 'A' + n)
  else if n < 52 then Char.ofNat (Char.toNat 'a' + (n - 26))
  else if n < 62 then Char.ofNat (Char.toNat '0' + (n - 52))
  else if n = 62 then '+'
  else '/'

/-- Standard base64 alphabet, character to sextet. -/
def b64v (c : Char) : Option Nat :=
  if 'A' ≤ c ∧ c ≤ 'Z' then some (c.toNat - Char.toNat 'A')
  else if 'a' ≤ c ∧ c ≤ 'z' then some (26 + (c.toNat - Char.toNat 'a'))
  else if '0' ≤ c ∧ c ≤ '9' then some (52 + (c.toNat - Char.toNat '0'))
  else if c = '+' then some 62
  else if c = '/' then some 63
  else none

/-- `BASE64_ENGINE.encode` (STANDARD, padded): 3 bytes → 4 sextet characters,
with canonical `=` padding for a 1- or 2-byte tail. -/
def base64Encode : List Nat → List Char
  | a :: b :: c :: rest =>
    b64c (a / 4) :: b64c (a % 4 * 16 + b / 16) :: b64c (b % 16 * 4 + c / 64) ::
      b64c (c % 64) :: base64Encode rest
  | [a, b] => [b64c (a / 4), b64c (a % 4 * 16 + b / 16), b64c (b % 16 * 4), '=']
  | [a] => [b64c (a / 4), b64c (a % 4 * 16), '=', '=']
  | [] => []

/-- `BASE64_ENGINE.decode` (STANDARD, padded, canonical): groups of 4
characters, `=` padding only in the final group, trailing sextet bits must be
zero. -/
def base64Decode : List Char → Except BinaryReprError (List Nat)
  | [] => .ok []
  | c0 :: c1 :: c2 :: c3 :: rest =>
    match b64v c0, b64v c1 with
    | some x0, some x1 =>
      if c2 = '=' then
        if c3 = '=' ∧ rest = [] ∧ x1 % 16 = 0 then .ok [x0 * 4 + x1 / 16]
        else .error .mk
      else
        match b64v c2 with
        | some x2 =>
          if c3 = '=' then
            if rest = [] ∧ x2 % 4 = 0 then
              .ok [x0 * 4 + x1 / 16, x1 % 16 * 16 + x2 / 4]
            else .error .mk
          else
            match b64v c3 with
            | some x3 =>
              (base64Decode rest).map fun v =>
                (x0 * 4 + x1 / 16) :: (x1 % 16 * 16 + x2 / 4) ::
                  (x2 % 4 * 64 + x3) :: v
            | none => .error .mk
        | none => .error .mk
    | _, _ => .error .mk
  | _ => .error .mk

/-- `BinaryRepr` (src/hash/binary_repr.rs lines 8-12): decoded bytes plus the
format tag the value was parsed from. -/
structure BinaryRepr : Type where
  value : List Nat
  format : BinaryReprFormat
deriving DecidableEq

namespace BinaryRepr

/-- `BinaryRepr::decode` (lines 42-44): clones the stored byte vector. -/
def decode (r : BinaryRepr) : List Nat := r.value

/-- `impl PartialEq for BinaryRepr` (lines 92-96): compares only `value`,
ignoring `format`. -/
def beqRepr (a b : BinaryRepr) : Bool := a.value == b.value

/-- `BinaryRepr::to_hex` (lines 62-64). -/
def to_hex (r : BinaryRepr) : List Char := hexEncode r.value

/-- `BinaryRepr::to_base64` (lines 52-54). -/
def to_base64 (r : BinaryRepr) : List Char := base64Encode r.value

end BinaryRepr

/-- One byte rendered as its 8 bits, least significant bit first, exactly as
the inner loop of `to_bin` pushes them (`0 < (n & (1u8 << i))`). -/
def byteBitsLSB (n : Nat) : List Char :=
  (List.range 8).map fun i => if 0 < n.land (1 <<< i) then '1' else '0'

/-- `BinaryRepr::to_bin` (src/hash/binary_repr.rs lines 71-79): pushes each
byte's bits LSB-first in byte order, then reverses the whole string. -/
def BinaryRepr.to_bin (r : BinaryRepr) : List Char :=
  (r.value.flatMap byteBitsLSB).reverse

/-- The inner loop of `from_bin` over one chunk: `chunk_val += 1 << i` for a
'1' at index `i`, error on any character other than '0'/'1'. -/
def chunkVal : List Char → Nat → Except BinaryReprError Nat
  | [], _ => .ok 0
  | c :: rest, i =>
    if c = '1' then (chunkVal rest (i + 1)).map fun v => v + (1 <<< i)
    else if c = '0' then chunkVal rest (i + 1)
    else .error .mk

/-- `from_bin` (src/hash/binary_repr.rs lines 98-120): chunks the reversed
character sequence by 8 (via `IterChunk::new(chars.as_bytes().iter().rev(), 8)`),
computes each chunk's value LSB-first, then reverses the byte list. -/
def from_bin (chars : List Char) : Except BinaryReprError (List Nat) := do
  let vals ← (chunkList 8 chars.reverse).mapM fun c => chunkVal c 0
  return vals.reverse

/-- `BinaryRepr::new` (src/hash/binary_repr.rs lines 23-32). -/
def BinaryRepr.new (value : List Char) (format : BinaryReprFormat) :
    Except BinaryReprError BinaryRepr :=
  (match format with
   | .base64 => base64Decode value
   | .hex => hexDecode value
   | .bin => from_bin value).map
    fun v => ⟨v, format⟩

/-! ## File paths and temporary-file derivation (src/http_client/mod.rs 112-126)

A path is modelled as its directory components plus its file name (as a
character list); `extension` / `set_extension` follow Rust's `std::path`
semantics: the extension is the portion of the file name after the last dot,
provided that dot is not the first character of the name. -/

/-- Splits a file name at its LAST dot: `some (before, after)`, or `none`
when the name contains no dot. -/
def lastDotSplit : List Char → Option (List Char × List Char)
  | [] => none
  | c :: rest =>
    match lastDotSplit rest with
    | some (b, a) => some (c :: b, a)
    | none => if c = '.' then some ([], rest) else none

/-- Rust `Path::extension`: `none` when there is no dot or when the only
relevant dot is the leading character (hidden files like `.bashrc`). -/
def pathExtension (name : List Char) : Option (List Char) :=
  match lastDotSplit name with
  | some (b, a) => if b = [] then none else some a
  | none => none

/-- Rust `Path::file_stem`: the portion before the last dot, or the whole
name when `extension` is `none`. -/
def fileStem (name : List Char) : List Char :=
  match lastDotSplit name with
  | some (b, _) => if b = [] then name else b
  | none => name

/-- Rust `PathBuf::set_extension`: replaces the file name with
`stem`, or `stem ++ "." ++ ext` when `ext` is non-empty. -/
def setExtension (name ext : List Char) : List Char :=
  fileStem name ++ (if ext = [] then [] else '.' :: ext)

/-- A filesystem path: directory components plus file name. -/
structure FPath : Type where
  dir : List (List Char)
  name : List Char
deriving DecidableEq

/-- The body of `generate_tmp_files` for one file name:
`ext = target.extension().unwrap_or_default(); ext.push(".tmp");
target.set_extension(ext)`. -/
def tmpName (name : List Char) : List Char :=
  setExtension name ((pathExtension name).getD [] ++ '.' :: ['t', 'm', 'p'])

/-- `CheckSum` (src/http_client/mod.rs lines 60-64). -/
inductive CheckSum : Type
  | none
  | md5 (expected : BinaryRepr)
deriving DecidableEq

/-- `FileToDl` (src/http_client/mod.rs lines 75-80). -/
structure FileToDl : Type where
  target : FPath
  source : List Char
  check_sum : CheckSum
deriving DecidableEq

/-- `generate_tmp_files` applied to one file: same source, same checksum,
same directory, `.tmp`-suffixed extension on the file name. -/
def generate_tmp_file (f : FileToDl) : FileToDl :=
  ⟨⟨f.target.dir, tmpName f.target.name⟩, f.source, f.check_sum⟩

/-- `generate_tmp_files` (src/http_client/mod.rs lines 112-126). -/
def generate_tmp_files (files : List FileToDl) : List FileToDl :=
  files.map generate_tmp_file

/-! ## Error taxonomy (src/error/mod.rs) -/

/-- `BadCheckSumErrorDetail` (src/error/mod.rs lines 14-19). -/
structure BadCheckSumErrorDetail : Type where
  url : List Char
  expected_hash : List Char
  current_hash : List Char
deriving DecidableEq

/-- `CheckHashError`: either a filesystem error (payload abstracted to a
message) or a checksum mismatch carrying a `BadCheckSumErrorDetail`. -/
inductive CheckHashError : Type
  | ioError (e : List Char)
  | hashError (d : BadCheckSumErrorDetail)
deriving DecidableEq

/-- `DlError` (src/error/mod.rs lines 100-105). -/
inductive DlError : Type
  | badCheckSumError (file_sources : List BadCheckSumErrorDetail)
  | curlError (e : List Char)
  | ioError (e : List Char)
deriving DecidableEq

/-! ## Checksum verification (src/http_client/mod.rs 24-73 and 135-153)

The filesystem and the md5 function are oracle parameters:
`contents p` is the bytes successfully read from path `p` or a filesystem
error, `existsF p` says whether `p` exists, and `md5f` is the digest
function. -/

/-- `md5_hash_check_file` (lines 24-58): digest the file, compare
base64-encoded digests, and on mismatch report both (the detail's `url`
field initially holds the path's file name, rewritten to the request's
source by `check_file_checksum`). -/
def md5_hash_check_file (md5f : List Nat → List Nat)
    (contents : FPath → Except (List Char) (List Nat))
    (expected_hash : BinaryRepr) (file_path : FPath) :
    Except CheckHashError Unit :=
  match contents file_path with
  | .error e => .error (.ioError e)
  | .ok bytes =>
    let digest_b64 := base64Encode (md5f bytes)
    let expected_hash_b64 := expected_hash.to_base64
    if digest_b64 = expected_hash_b64 then .ok ()
    else .error (.hashError ⟨file_path.name, expected_hash_b64, digest_b64⟩)

/-- `CheckSum::do_file_matches_checksum` (lines 66-73): `None` verifies
trivially. -/
def do_file_matches_checksum (md5f : List Nat → List Nat)
    (contents : FPath → Except (List Char) (List Nat))
    (cs : CheckSum) (file_path : FPath) : Except CheckHashError Unit :=
  match cs with
  | .none => .ok ()
  | .md5 expected => md5_hash_check_file md5f contents expected file_path

/-- `check_file_checksum` (lines 135-153): a missing file verifies trivially;
on a mismatch the detail's `url` is rewritten to the request's source. -/
def check_file_checksum (md5f : List Nat → List Nat)
    (contents : FPath → Except (List Char) (List Nat))
    (existsF : FPath → Bool) (file : FileToDl) : Except CheckHashError Unit :=
  if !existsF file.target then .ok ()
  else
    match do_file_matches_checksum md5f contents file.check_sum file.target with
    | .ok () => .ok ()
    | .error (.ioError e) => .error (.ioError e)
    | .error (.hashError detail) =>
      .error (.hashError ⟨file.source, detail.expected_hash, detail.current_hash⟩)

/-! ## Verification / promotion pass (src/http_client/mod.rs 155-239)

Filesystem mutations are recorded as a trace of events; the only mutation the
pass performs is the `fs::rename` promoting a temporary file onto its final
destination.  `renameRes` is the filesystem oracle for the outcome of a
rename. -/

/-- A filesystem mutation performed by the verification pass. -/
inductive FsEvent : Type
  | rename (src dst : FPath)
deriving DecidableEq

/-- `check_hash_and_rename` (lines 155-164): verify the temporary file's
checksum; only on success issue the rename of the temporary path onto the
final path (a failed rename surfaces as `CheckHashError::IoError`). -/
def check_hash_and_rename (md5f : List Nat → List Nat)
    (contents : FPath → Except (List Char) (List Nat))
    (existsF : FPath → Bool)
    (renameRes : FPath → FPath → Except (List Char) Unit)
    (files : FileToDl × FileToDl) : Except CheckHashError Unit × List FsEvent :=
  let (tmp_file, file) := files
  match check_file_checksum md5f contents existsF tmp_file with
  | .error err => (.error err, [])
  | .ok () =>
    match renameRes tmp_file.target file.target with
    | .ok () => (.ok (), [.rename tmp_file.target file.target])
    | .error e => (.error (.ioError e), [.rename tmp_file.target file.target])

/-- The `for result in results ...` aggregation loop shared by
`download_files_http11` (lines 177-191) and `download_files_http2`
(lines 223-238): the first `IoError` returns immediately; `HashError`
details are pushed onto `bad_check`, returned together at the end. -/
def aggregate_loop :
    List CheckHashError → List BadCheckSumErrorDetail → Except DlError Unit
  | [], bad_check =>
    if bad_check = [] then .ok () else .error (.badCheckSumError bad_check)
  | .ioError err :: _, _ => .error (.ioError err)
  | .hashError err :: rest, bad_check => aggregate_loop rest (bad_check ++ [err])

/-- `results.into_iter().filter(Result::is_err).map(Result::unwrap_err)`. -/
def collect_errors (results : List (Except CheckHashError Unit)) :
    List CheckHashError :=
  results.filterMap fun r =>
    match r with
    | .error e => some e
    | .ok () => none

/-- The whole post-transfer pass: per-file verify/rename outcomes fed through
the aggregation loop with an initially empty `bad_check`. -/
def aggregate_results (results : List (Except CheckHashError Unit)) :
    Except DlError Unit :=
  aggregate_loop (collect_errors results) []

/-- The common body of `download_files_http11` (lines 166-192) and
`download_files_http2` (lines 212-239): derive temporary destinations, run
the transfer phase (whose outcome, `transferRes`, is the oracle for the
curl-driven transfer into the temporary paths — on error the `?` operator
returns it before any verification or rename), then verify and promote each
temporary file and aggregate the outcomes. -/
def download_files_run (transferRes : Except DlError Unit)
    (md5f : List Nat → List Nat)
    (contents : FPath → Except (List Char) (List Nat))
    (existsF : FPath → Bool)
    (renameRes : FPath → FPath → Except (List Char) Unit)
    (files : List FileToDl) : Except DlError Unit × List FsEvent :=
  let tmp_files := generate_tmp_files files
  match transferRes with
  | .error e => (.error e, [])
  | .ok () =>
    let outs := (tmp_files.zip files).map
      (check_hash_and_rename md5f contents existsF renameRes)
    (aggregate_results (outs.map Prod.fst), (outs.map Prod.snd).flatten)

/-- `download_files_http11` (src/http_client/mod.rs lines 166-192);
`transferRes` is the outcome of `download_files_http11_curl` on the
temporary files. -/
def download_files_http11 (transferRes : Except DlError Unit)
    (md5f : List Nat → List Nat)
    (contents : FPath → Except (List Char) (List Nat))
    (existsF : FPath → Bool)
    (renameRes : FPath → FPath → Except (List Char) Unit)
    (files : List FileToDl) : Except DlError Unit × List FsEvent :=
  download_files_run transferRes md5f contents existsF renameRes files

/-- `download_files_http2` (src/http_client/mod.rs lines 212-239);
`transferRes` is the outcome of `download_files_http2_curl` on the
temporary files. -/
def download_files_http2 (transferRes : Except DlError Unit)
    (md5f : List Nat → List Nat)
    (contents : FPath → Except (List Char) (List Nat))
    (existsF : FPath → Bool)
    (renameRes : FPath → FPath → Except (List Char) Unit)
    (files : List FileToDl) : Except DlError Unit × List FsEvent :=
  download_files_run transferRes md5f contents existsF renameRes files

/-! ## DlHttp1Future (src/curl_async/http11.rs)

The worker thread is an oracle: `finished` says whether
`thread.is_finished()` holds at this poll, `result` is what `thread.join()`
would deliver.  A `panic!` is modelled explicitly as a `panicked` outcome. -/

/-- `DlHttp1FutureState` (lines 13-17); the `NotStarted` builder payload and
the `Pending` join handle live in the oracles. -/
inductive H1State : Type
  | notStarted
  | pending
  | done
deriving DecidableEq

/-- What one call to `DlHttp1Future::poll` does: report pending (scheduling a
wake timer), return the transfer result, or panic. -/
inductive H1PollOut : Type
  | pending
  | ready (r : Except (List Char) Unit)
  | panicked (msg : List Char)

/-- `DlHttp1Future::poll` (lines 49-105).  `NotStarted` spawns the worker and
reports pending; `Pending` with an unfinished worker schedules a wake timer
and reports pending; `Pending` with a finished worker joins it, moves to
`Done` and returns the result; any poll in `Done` hits
`panic!("bad state")`. -/
def dlHttp1_poll (finished : Bool) (result : Except (List Char) Unit) :
    H1State → H1PollOut × H1State
  | .notStarted => (.pending, .pending)
  | .pending =>
    if finished then (.ready result, .done) else (.pending, .pending)
  | .done => (.panicked ['b', 'a', 'd', ' ', 's', 't', 'a', 't', 'e'], .done)

/-! ## DlHttp2Future (src/curl_async/http2.rs)

`multi.perform()` is the pump oracle: `ok remaining` is
`Ok(remaining_active_transfers)`, `err` a transfer-layer error.  The third
component of a poll's result counts how many pump steps the poll performed. -/

/-- `multi.perform()` outcome. -/
inductive PumpRes : Type
  | ok (remaining : Nat)
  | err (e : List Char)
deriving DecidableEq

/-- `DlHttp2FutureState` (lines 16-21). -/
inductive H2State (α : Type) : Type
  | pending
  | done (files : List α)
  | error (e : List Char)
deriving DecidableEq

/-- `DlHttp2FutureInner` (lines 28-33): the borrowed handle set, whether the
`Multi` handle is still held, and the state.  (The `join` wake-timer handle
carries no information relevant to any claim.) -/
structure H2Inner (α : Type) : Type where
  files : Option (List α)
  hasMulti : Bool
  state : H2State α
deriving DecidableEq

/-- `DlHttp2FutureInner::poll_multi` (lines 36-68): only acts in `Pending`;
an empty (or absent) handle set completes immediately without pumping;
otherwise one pump step is taken and `Ok(0)` completes, an error fails, and
anything else stays pending.  Returns the new inner and the number of pump
steps taken. -/
def h2_poll_multi {α : Type} (pump : PumpRes) (s : H2Inner α) :
    H2Inner α × Nat :=
  match s.state with
  | .pending =>
    if (s.files.map List.isEmpty).getD true then
      (⟨none, false, .done (s.files.getD [])⟩, 0)
    else if s.hasMulti then
      match pump with
      | .ok 0 => (⟨none, false, .done (s.files.getD [])⟩, 1)
      | .ok (_ + 1) => (s, 1)
      | .err e => (⟨s.files, false, .error e⟩, 1)
    else (s, 0)
  | _ => (s, 0)

/-- What one call to `DlHttp2FutureInner::poll` reports. -/
inductive H2PollOut (α : Type) : Type
  | pending
  | ready (r : Except (List Char) (List α))

/-- `DlHttp2FutureInner::poll` (lines 70-86): pump once while `Pending`, then
report according to the state; `Done` and `Error` report the stored value
again on every call (they are never consumed or invalidated). -/
def h2_poll {α : Type} (pump : PumpRes) (s : H2Inner α) :
    H2PollOut α × H2Inner α × Nat :=
  let p :=
    match s.state with
    | .pending => h2_poll_multi pump s
    | _ => (s, 0)
  match p.1.state with
  | .done files => (.ready (.ok files), p.1, p.2)
  | .error e => (.ready (.error e), p.1, p.2)
  | .pending => (.pending, p.1, p.2)

/-- `DlHttp2Future::new` (lines 105-128): an empty handle set drops the
`Multi` handle at construction and starts in `Done`; otherwise the future
starts `Pending`, retaining the handle set and the `Multi` handle. -/
def dlHttp2_new {α : Type} (files : List α) : H2Inner α :=
  if files.isEmpty then ⟨none, false, .done files⟩
  else ⟨some files, true, .pending⟩

/-- Repeatedly poll a `DlHttp2Future` until it reports ready (`fuel` bounds
the number of polls); returns the result and the total pump count.  Models
awaiting the future in `download_files_http2_curl`. -/
def h2_await {α : Type} (pumpSeq : Nat → PumpRes) (fuel : Nat) (s : H2Inner α)
    (pumped : Nat) : Option (Except (List Char) (List α)) × Nat :=
  match fuel with
  | 0 => (none, pumped)
  | fuel + 1 =>
    match h2_poll (pumpSeq 0) s with
    | (.ready r, _, n) => (some r, pumped + n)
    | (.pending, s1, n) =>
      h2_await (fun i => pumpSeq (i + 1)) fuel s1 (pumped + n)

/-- `download_files_http2_curl` (src/http_client/mod.rs lines 194-210): with
no download tokens, no future is constructed and no pump happens — the
function returns `Ok(())` immediately; otherwise the future over the tokens
is awaited (its transfer error collapsed to a `CurlError`). -/
def download_files_http2_curl {α : Type} (pumpSeq : Nat → PumpRes) (fuel : Nat)
    (dl_tokens : List α) : Option (Except DlError Unit) × Nat :=
  if dl_tokens.isEmpty then (some (.ok ()), 0)
  else
    match h2_await pumpSeq fuel (dlHttp2_new dl_tokens) 0 with
    | (some (.ok _), n) => (some (.ok ()), n)
    | (some (.error _), n) =>
      (some (.error (.curlError
        ['h', 't', 't', 'p', '2', ' ', 'e', 'r', 'r', 'o', 'r'])), n)
    | (none, n) => (none, n)

/-! ## DownloadFolder::add_file path re-rooting (src/lib.rs 230-240)

For prefix stripping and joining, a path is modelled as an absoluteness flag
plus its normal components (Rust `Path::components` yields no empty
components; `.` and `..` may occur).  `strip_prefix`, `join` and the
component `..`/`.` resolution follow `std::path` semantics on Unix. -/

/-- A path for the re-rooting logic: absolute flag + components. -/
structure RPath : Type where
  absolute : Bool
  comps : List (List Char)
deriving DecidableEq

/-- Rust `Path::strip_prefix`: succeeds when `base`'s components (including
its absoluteness) are a prefix of `p`'s, returning the relative remainder. -/
def stripPrefixFrom (p base : RPath) : Option RPath :=
  if p.absolute = base.absolute ∧ base.comps.isPrefixOf p.comps then
    some ⟨false, p.comps.drop base.comps.length⟩
  else none

/-- Rust `Path::join`: an absolute argument replaces the base entirely;
otherwise the components are appended. -/
def joinPath (base arg : RPath) : RPath :=
  if arg.absolute then arg else ⟨base.absolute, base.comps ++ arg.comps⟩

/-- The root path, `Path::new("/")`. -/
def rootPath : RPath := ⟨true, []⟩

/-- `DownloadFolder::add_file`'s target rewrite (src/lib.rs lines 230-240):
`self.path.join(target.strip_prefix(&self.path)
  .or_else(|_| target.strip_prefix("/")).unwrap_or(&target))`. -/
def add_file_target (base target : RPath) : RPath :=
  joinPath base
    (((stripPrefixFrom target base).or (stripPrefixFrom target rootPath)).getD
      target)

def dotComp : List Char := ['.']

def dotDotComp : List Char := ['.', '.']

/-- Resolution of `.` and `..` components against a component stack (held
reversed); a `..` at an absolute root vanishes, at a relative root it is
kept. -/
def normStack (absolute : Bool) : List (List Char) → List (List Char) →
    List (List Char)
  | stack, [] => stack.reverse
  | stack, c :: rest =>
    if c = dotComp then normStack absolute stack rest
    else if c = dotDotComp then
      match stack with
      | [] =>
        if absolute then normStack absolute [] rest
        else normStack absolute [dotDotComp] rest
      | top :: s1 =>
        if top = dotDotComp then normStack absolute (c :: stack) rest
        else normStack absolute s1 rest
    else normStack absolute (c :: stack) rest

/-- The location a path resolves to: its components after `.`/`..`
resolution. -/
def normPath (p : RPath) : RPath :=
  ⟨p.absolute, normStack p.absolute [] p.comps⟩

/-- `p` resolves to a location inside `base`: same absoluteness and `base`'s
resolved components lead `p`'s. -/
def insidePath (base p : RPath) : Prop :=
  p.absolute = base.absolute ∧ (normPath base).comps <+: (normPath p).comps

instance (base p : RPath) : Decidable (insidePath base p) := by
  unfold insidePath
  exact instDecidableAnd

/-- A component list free of `.` and `..`. -/
def cleanComps (l : List (List Char)) : Prop :=
  ∀ c ∈ l, c ≠ dotComp ∧ c ≠ dotDotComp

instance (l : List (List Char)) : Decidable (cleanComps l) := by
  unfold cleanComps
  exact List.decidableBAll _ l

/-- The first `IoError` payload among the collected per-file errors. -/
def firstIoError : List CheckHashError → Option (List Char)
  | [] => none
  | .ioError e :: _ => some e
  | .hashError _ :: rest => firstIoError rest

/-- All `HashError` details among the collected per-file errors, in order. -/
def hashDetails (errs : List CheckHashError) : List BadCheckSumErrorDetail :=
  errs.filterMap fun e =>
    match e with
    | .hashError d => some d
    | .ioError _ => none

/-! # Theorems -/

/-! ## Helper lemmas -/

theorem takeUpTo_eq_take_drop {α : Type} (n : Nat) (l : List α) :
    takeUpTo n l = (l.take n, l.drop n) := by
  induction n generalizing l with
  | zero => simp [takeUpTo]
  | succ n ih =>
    cases l with
    | nil => simp [takeUpTo]
    | cons x rest => simp [takeUpTo, ih]

theorem chunkList_cons {α : Type} (n : Nat) (x : α) (rest : List α) :
    chunkList n (x :: rest) =
      (x :: rest.take (n - 1)) :: chunkList n (rest.drop (n - 1)) := by
  rw [chunkList]

theorem chunkList_flatten {α : Type} (n : Nat) :
    ∀ (k : Nat) (l : List α), l.length ≤ k → (chunkList n l).flatten = l := by
  intro k
  induction k with
  | zero =>
    intro l h
    have : l = [] := List.length_eq_zero.mp (Nat.le_zero.mp h)
    simp [this, chunkList]
  | succ k ih =>
    intro l h
    cases l with
    | nil => simp [chunkList]
    | cons x rest =>
      rw [chunkList_cons]
      have hlen : (rest.drop (n - 1)).length ≤ k := by
        simp only [List.length_cons] at h
        have := List.length_drop (n - 1) rest
        omega
      simp only [List.flatten_cons, ih _ hlen]
      simp [List.take_append_drop]

theorem chunkList_mem {α : Type} (n : Nat) (hn1 : 1 ≤ n) :
    ∀ (k : Nat) (l : List α) (c : List α), l.length ≤ k →
      c ∈ chunkList n l → c ≠ [] ∧ c.length ≤ n := by
  intro k
  induction k with
  | zero =>
    intro l c h hc
    have : l = [] := List.length_eq_zero.mp (Nat.le_zero.mp h)
    subst this
    simp [chunkList] at hc
  | succ k ih =>
    intro l c h hc
    cases l with
    | nil => simp [chunkList] at hc
    | cons x rest =>
      rw [chunkList_cons] at hc
      rcases List.mem_cons.mp hc with hc | hc
      · subst hc
        refine ⟨by simp, ?_⟩
        simp only [List.length_cons]
        have hn : (rest.take (n - 1)).length ≤ n - 1 := by
          simp [List.length_take]
        omega
      · have hlen : (rest.drop (n - 1)).length ≤ k := by
          simp only [List.length_cons] at h
          have := List.length_drop (n - 1) rest
          omega
        exact ih _ _ hlen hc

/-! ## C8 — IterChunk chunking -/

/-- C8: for every chunk size `n + 1 ≥ 1` and every finite underlying
iterator, iterating `IterChunk::next` terminates (the chunk list is the
finite `chunkList`, `next` returns `None` exactly on the exhausted iterator,
and each `next` on a non-exhausted iterator yields the head chunk of
`chunkList` and leaves the rest), the chunks are non-empty with at most
`n + 1` elements, and their concatenation is the underlying sequence; for
chunk size `0`, `next()` returns `Some(empty vector)` with the iterator
unconsumed on every call and never returns `None`, so iteration never
terminates. -/
theorem C8_iter_chunk (α : Type) (n : Nat) (l : List α) :
    ((chunkList (n + 1) l).flatten = l
      ∧ (∀ c ∈ chunkList (n + 1) l, c ≠ [] ∧ c.length ≤ n + 1))
    ∧ iterChunkNext (n + 1) ([] : List α) = (none, [])
    ∧ (∀ (x : α) (rest : List α),
        iterChunkNext (n + 1) (x :: rest) = (some (x :: rest.take n), rest.drop n)
          ∧ chunkList (n + 1) (x :: rest) =
              (x :: rest.take n) :: chunkList (n + 1) (rest.drop n))
    ∧ (∀ it : List α, iterChunkNext 0 it = (some [], it)) := by
  refine ⟨⟨chunkList_flatten (n + 1) l.length l le_rfl,
          fun c hc => chunkList_mem (n + 1) (by omega) l.length l c le_rfl hc⟩,
         ?_, ?_, ?_⟩
  · simp [iterChunkNext]
  · intro x rest
    constructor
    · simp [iterChunkNext, takeUpTo_eq_take_drop]
    · rw [chunkList_cons]
      simp
  · intro it
    simp [iterChunkNext]

/-! ## C10 — BinaryRepr equality ignores the format tag -/

/-- C10: `PartialEq` on `BinaryRepr` compares only the decoded byte vector
and ignores the representation format tag: `a == b` iff
`a.decode() == b.decode()`, and in particular the same bytes tagged with any
two formats compare equal. -/
theorem C10_eq_ignores_format (a b : BinaryRepr) :
    (BinaryRepr.beqRepr a b = true ↔ a.decode = b.decode)
    ∧ (∀ (v : List Nat) (f1 f2 : BinaryReprFormat),
        BinaryRepr.beqRepr ⟨v, f1⟩ ⟨v, f2⟩ = true) := by
  constructor
  · simp [BinaryRepr.beqRepr, BinaryRepr.decode]
  · intro v f1 f2
    simp [BinaryRepr.beqRepr]

/-! ## C3 — DlHttp1Future poll-after-terminal (corrected) -/

/-- C3 counterexample: after the terminal result has been consumed (a poll in
`Pending` with a finished worker returns it and moves to `Done`), the next
poll does not fail with a reported already-taken error — it hits
`panic!("bad state")`: the poll outcome is a panic, not a reported result. -/
theorem C3_counterexample :
    dlHttp1_poll true (.ok ()) .pending = (.ready (.ok ()), .done)
    ∧ (dlHttp1_poll true (.ok ()) .done).1 =
        .panicked ['b', 'a', 'd', ' ', 's', 't', 'a', 't', 'e']
    ∧ (∀ r, (dlHttp1_poll true (.ok ()) .done).1 ≠ .ready r)
    ∧ (dlHttp1_poll true (.ok ()) .done).1 ≠ .pending := by
  refine ⟨rfl, rfl, fun r h => ?_, fun h => ?_⟩ <;> simp [dlHttp1_poll] at h

/-- C3 amended: a poll of a `DlHttp1Future` whose worker has finished returns
the terminal transfer result exactly once (transitioning to `Done`); a poll
with an unfinished worker does not block and reports pending; every poll
after the terminal result was consumed panics with "bad state" — a
programming-contract violation surfaced as a panic (the code has no
`ValueAlreadyTaken` error value), not a blocking wait or a repeated
result. -/
theorem C3_poll_exactly_once (finished : Bool)
    (result : Except (List Char) Unit) :
    dlHttp1_poll true result .pending = (.ready result, .done)
    ∧ dlHttp1_poll false result .pending = (.pending, .pending)
    ∧ dlHttp1_poll finished result .notStarted = (.pending, .pending)
    ∧ dlHttp1_poll finished result .done =
        (.panicked ['b', 'a', 'd', ' ', 's', 't', 'a', 't', 'e'], .done) := by
  exact ⟨rfl, rfl, rfl, rfl⟩

/-! ## C4 — empty multiplexed batch resolves immediately -/

/-- C4: constructing `DlHttp2Future` over an empty handle set drops the
shared `Multi` handle at construction and starts in `Done`; its first poll
returns `Ready(Ok)` with no pump step; `download_files_http2_curl` over an
empty token set builds no future, performs no pump and returns `Ok(())`
immediately. -/
theorem C4_empty_batch_done (α : Type) (pump : PumpRes)
    (pumpSeq : Nat → PumpRes) (fuel : Nat) :
    dlHttp2_new ([] : List α) = ⟨none, false, .done []⟩
    ∧ h2_poll pump (dlHttp2_new ([] : List α)) =
        (.ready (.ok []), ⟨none, false, .done []⟩, 0)
    ∧ download_files_http2_curl pumpSeq fuel ([] : List α) =
        (some (.ok ()), 0) := by
  exact ⟨rfl, rfl, rfl⟩

/-! ## C9 — terminal DlHttp2Future polls are repeatable -/

/-- C9: once a `DlHttp2Future` is terminal, every subsequent poll returns the
same ready result again without pumping — `Done` yields the same handle-set
slice and `Error` the same shared error, the state is left unchanged, and
re-polling neither panics nor reports an already-taken condition (the poll
function is total on terminal states and consumes nothing). -/
theorem C9_h2_terminal_repeatable (α : Type) (pump : PumpRes)
    (files : Option (List α)) (hasMulti : Bool) (fs : List α) (e : List Char) :
    h2_poll pump ⟨files, hasMulti, .done fs⟩ =
        (.ready (.ok fs), ⟨files, hasMulti, .done fs⟩, 0)
    ∧ h2_poll pump ⟨files, hasMulti, .error e⟩ =
        (.ready (.error e), ⟨files, hasMulti, .error e⟩, 0) := by
  exact ⟨rfl, rfl⟩

/-! ## C7 — temporary file naming (corrected) -/

theorem lastDotSplit_eq {name b a : List Char}
    (h : lastDotSplit name = some (b, a)) : name = b ++ '.' :: a := by
  induction name generalizing b a with
  | nil => simp [lastDotSplit] at h
  | cons c rest ih =>
    cases hr : lastDotSplit rest with
    | some p =>
      obtain ⟨b1, a1⟩ := p
      simp only [lastDotSplit, hr, Option.some.injEq, Prod.mk.injEq] at h
      obtain ⟨hb, ha⟩ := h
      subst hb
      subst ha
      simp [ih hr]
    | none =>
      simp only [lastDotSplit, hr] at h
      by_cases hc : c = '.'
      · rw [if_pos hc] at h
        simp only [Option.some.injEq, Prod.mk.injEq] at h
        obtain ⟨hb, ha⟩ := h
        subst hb
        subst ha
        simp [hc]
      · rw [if_neg hc] at h
        exact absurd h (by simp)

theorem zip_generate_tmp_files (files : List FileToDl) :
    (generate_tmp_files files).zip files =
      files.map fun g => (generate_tmp_file g, g) := by
  unfold generate_tmp_files
  induction files with
  | nil => rfl
  | cons f rest ih => simp [ih]

/-- C7 counterexample: for a target whose file name has no extension
(`"file"`), the derived temporary name is `"file..tmp"` — the empty default
extension still gets a dot separator from `set_extension` — not the
`"file.tmp"` the claim states. -/
theorem C7_counterexample :
    tmpName ['f', 'i', 'l', 'e'] ≠
      ['f', 'i', 'l', 'e'] ++ ['.', 't', 'm', 'p'] := by
  decide

theorem tmpName_of_ext {name e : List Char}
    (he : pathExtension name = some e) :
    tmpName name = name ++ ['.', 't', 'm', 'p'] := by
  cases hs : lastDotSplit name with
  | none =>
    simp only [pathExtension, hs] at he
    exact absurd he (by simp)
  | some p =>
    obtain ⟨b, a⟩ := p
    simp only [pathExtension, hs] at he
    by_cases hb : b = []
    · rw [if_pos hb] at he; simp at he
    · rw [if_neg hb] at he
      have ha : a = e := by simpa using he
      subst ha
      have hname := lastDotSplit_eq hs
      have hpe : pathExtension name = some a := by
        simp only [pathExtension, hs]
        rw [if_neg hb]
      have hstem : fileStem name = b := by
        simp only [fileStem, hs]
        rw [if_neg hb]
      unfold tmpName setExtension
      rw [hpe, hstem]
      simp only [Option.getD_some]
      rw [if_neg (by simp)]
      rw [hname]
      simp

theorem tmpName_of_no_ext {name : List Char}
    (he : pathExtension name = none) :
    tmpName name = name ++ ['.', '.', 't', 'm', 'p'] := by
  have hstem : fileStem name = name := by
    cases hs : lastDotSplit name with
    | none => simp [fileStem, hs]
    | some p =>
      obtain ⟨b, a⟩ := p
      simp only [pathExtension, hs] at he
      by_cases hb : b = []
      · simp [fileStem, hs, hb]
      · rw [if_neg hb] at he; simp at he
  unfold tmpName setExtension
  rw [he, hstem]
  simp

/-- C7 amended: `generate_tmp_files` derives the temporary destination in the
same directory (and with the same source and checksum); when the target's
file name has an extension the temporary name is `<original>.tmp` (appending
`.tmp` to the existing extension, `name.ext` → `name.ext.tmp`); when the file
name has NO extension the temporary name is `<original>..tmp` (an empty
default extension still receives the dot separator); promotion pairs exactly
this temporary file with its final file (the verification pass zips
`generate_tmp_files files` with `files` one-to-one). -/
theorem C7_tmp_file_name (f : FileToDl) :
    (generate_tmp_file f).target.dir = f.target.dir
    ∧ (generate_tmp_file f).source = f.source
    ∧ (generate_tmp_file f).check_sum = f.check_sum
    ∧ (∀ e, pathExtension f.target.name = some e →
        (generate_tmp_file f).target.name =
          f.target.name ++ ['.', 't', 'm', 'p'])
    ∧ (pathExtension f.target.name = none →
        (generate_tmp_file f).target.name =
          f.target.name ++ ['.', '.', 't', 'm', 'p'])
    ∧ (∀ files : List FileToDl,
        (generate_tmp_files files).zip files =
          files.map fun g => (generate_tmp_file g, g)) := by
  exact ⟨rfl, rfl, rfl, fun e he => tmpName_of_ext he,
         fun he => tmpName_of_no_ext he, zip_generate_tmp_files⟩

/-! ## C5 — add_file path re-rooting (corrected) -/

theorem normStack_clean (absolute : Bool) (stack : List (List Char)) :
    ∀ l, cleanComps l → normStack absolute stack l = stack.reverse ++ l := by
  intro l
  induction l generalizing stack with
  | nil => intro _; simp [normStack]
  | cons c rest ih =>
    intro hc
    obtain ⟨h1, h2⟩ := hc c (List.mem_cons_self c rest)
    have hrest : cleanComps rest := fun d hd => hc d (List.mem_cons_of_mem c hd)
    simp only [normStack]
    rw [if_neg h1, if_neg h2, ih (c :: stack) hrest]
    simp

theorem normPath_clean {p : RPath} (h : cleanComps p.comps) :
    normPath p = ⟨p.absolute, p.comps⟩ := by
  unfold normPath
  rw [normStack_clean p.absolute [] p.comps h]
  simp

/-- C5 counterexample: a target containing a parent-directory component is
not re-rooted inside the base.  With base `base` (relative) and target
`../evil`, neither the base prefix nor the absolute-root prefix strips, so
the stored target is `base/../evil`, which resolves to `evil` — outside the
folder's root. -/
theorem C5_counterexample :
    add_file_target ⟨false, [['b', 'a', 's', 'e']]⟩
        ⟨false, [['.', '.'], ['e', 'v', 'i', 'l']]⟩ =
      ⟨false, [['b', 'a', 's', 'e'], ['.', '.'], ['e', 'v', 'i', 'l']]⟩
    ∧ ¬ insidePath ⟨false, [['b', 'a', 's', 'e']]⟩
        (add_file_target ⟨false, [['b', 'a', 's', 'e']]⟩
          ⟨false, [['.', '.'], ['e', 'v', 'i', 'l']]⟩) := by
  constructor
  · decide
  · decide

/-- C5 amended: `add_file` re-roots the stored target under the base exactly
as described — a prefix equal to the base, or the absolute-root prefix, is
stripped and the remainder joined to the base — and the resulting path
resolves to a location inside the base for every target free of `.` and `..`
components (base likewise clean); a target containing parent-directory
(`..`) components may still escape the folder's root, since `join` does not
resolve them (see the counterexample). -/
theorem C5_reroot_inside (base target : RPath) (hb : cleanComps base.comps)
    (ht : cleanComps target.comps) :
    add_file_target base target =
      joinPath base
        (((stripPrefixFrom target base).or
          (stripPrefixFrom target rootPath)).getD target)
    ∧ insidePath base (add_file_target base target) := by
  refine ⟨rfl, ?_⟩
  -- the argument handed to join is always relative, with a suffix of the
  -- target's components
  obtain ⟨k, hk⟩ : ∃ k, ((stripPrefixFrom target base).or
      (stripPrefixFrom target rootPath)).getD target =
        ⟨false, target.comps.drop k⟩ := by
    unfold stripPrefixFrom rootPath
    by_cases h1 : target.absolute = base.absolute
        ∧ base.comps.isPrefixOf target.comps
    · exact ⟨base.comps.length, by rw [if_pos h1]; rfl⟩
    · rw [if_neg h1]
      by_cases h2 : target.absolute = true ∧ List.isPrefixOf [] target.comps
      · exact ⟨0, by rw [if_pos h2]; rfl⟩
      · have habs : target.absolute = false := by
          cases h : target.absolute
          · rfl
          · exact absurd ⟨h, by simp [List.isPrefixOf]⟩ h2
        refine ⟨0, ?_⟩
        rw [if_neg h2]
        obtain ⟨tabs, tcomps⟩ := target
        simp only at habs
        rw [habs]
        simp [Option.getD]
  unfold add_file_target
  rw [hk]
  unfold joinPath
  rw [if_neg (by simp)]
  have hclean2 : cleanComps (base.comps ++ target.comps.drop k) := by
    intro c hc
    rcases List.mem_append.mp hc with h | h
    · exact hb c h
    · exact ht c (List.mem_of_mem_drop h)
  constructor
  · rfl
  · rw [normPath_clean hb, normPath_clean hclean2]
    exact List.prefix_append base.comps (target.comps.drop k)

/-- C5 witness: a concrete absolute target re-rooted inside a relative base
folder. -/
theorem C5_reroot_inside_witness :
    add_file_target ⟨false, [['b']]⟩ ⟨true, [['x']]⟩ =
      joinPath ⟨false, [['b']]⟩
        (((stripPrefixFrom ⟨true, [['x']]⟩ ⟨false, [['b']]⟩).or
          (stripPrefixFrom ⟨true, [['x']]⟩ rootPath)).getD ⟨true, [['x']]⟩)
    ∧ insidePath ⟨false, [['b']]⟩
        (add_file_target ⟨false, [['b']]⟩ ⟨true, [['x']]⟩) :=
  C5_reroot_inside ⟨false, [['b']]⟩ ⟨true, [['x']]⟩ (by decide) (by decide)

/-! ## C2 — error aggregation of the verification pass -/

theorem aggregate_loop_spec (errs : List CheckHashError) :
    ∀ acc, aggregate_loop errs acc =
      match firstIoError errs with
      | some e => .error (.ioError e)
      | none =>
        if acc ++ hashDetails errs = [] then .ok ()
        else .error (.badCheckSumError (acc ++ hashDetails errs)) := by
  induction errs with
  | nil => intro acc; simp [aggregate_loop, firstIoError, hashDetails]
  | cons e rest ih =>
    intro acc
    cases e with
    | ioError msg => simp [aggregate_loop, firstIoError]
    | hashError d =>
      simp only [aggregate_loop, firstIoError, hashDetails,
        List.filterMap_cons]
      rw [ih (acc ++ [d])]
      simp [hashDetails]

theorem collect_errors_eq_nil {results : List (Except CheckHashError Unit)} :
    collect_errors results = [] ↔ ∀ r ∈ results, r = .ok () := by
  unfold collect_errors
  induction results with
  | nil => simp
  | cons r rest ih =>
    cases r with
    | error e => simp [List.filterMap_cons]
    | ok u =>
      cases u
      simp only [List.filterMap_cons, List.mem_cons]
      constructor
      · intro h x hx
        rcases hx with hx | hx
        · exact hx ▸ rfl
        · exact ih.mp h x hx
      · intro h
        exact ih.mpr fun x hx => h x (Or.inr hx)

theorem errs_all_cases (errs : List CheckHashError)
    (hio : firstIoError errs = none) (hh : hashDetails errs = []) :
    errs = [] := by
  cases errs with
  | nil => rfl
  | cons e rest =>
    cases e with
    | ioError msg => simp [firstIoError] at hio
    | hashError d => simp [hashDetails, List.filterMap_cons] at hh

/-- C2: after a successful transfer phase, the verification/promotion pass of
`download_files_http11` and `download_files_http2` aggregates the per-file
outcomes thus — the first `IoError` in order is returned immediately as
`DlError::IoError` (short-circuiting the remaining aggregation, even past
already-collected mismatches); when no `IoError` occurs, all checksum
mismatches of the batch are returned together as one `BadCheckSumError`
listing every mismatching file's detail in order; `Ok(())` is returned iff no
I/O error and no mismatch occurred; and each mismatch detail produced by
`check_file_checksum` records both the expected digest and the actual digest
(base64-encoded, with the request's source as its url). -/
theorem C2_error_aggregation (results : List (Except CheckHashError Unit)) :
    (aggregate_results results =
      match firstIoError (collect_errors results) with
      | some e => .error (.ioError e)
      | none =>
        if hashDetails (collect_errors results) = [] then .ok ()
        else .error (.badCheckSumError (hashDetails (collect_errors results))))
    ∧ (aggregate_results results = .ok () ↔ ∀ r ∈ results, r = .ok ())
    ∧ (∀ transferOkRes md5f contents existsF renameRes files,
         transferOkRes = Except.ok () →
         download_files_http11 transferOkRes md5f contents existsF renameRes
             files =
           download_files_http2 transferOkRes md5f contents existsF renameRes
             files
         ∧ (download_files_http11 transferOkRes md5f contents existsF renameRes
             files).1 =
           aggregate_results
             (((generate_tmp_files files).zip files).map fun p =>
               (check_hash_and_rename md5f contents existsF renameRes p).1))
    ∧ (∀ md5f contents existsF f d,
         check_file_checksum md5f contents existsF f = .error (.hashError d) →
         ∃ expected bytes, f.check_sum = .md5 expected
           ∧ contents f.target = .ok bytes
           ∧ d = ⟨f.source, base64Encode expected.value,
                  base64Encode (md5f bytes)⟩
           ∧ base64Encode (md5f bytes) ≠ base64Encode expected.value) := by
  refine ⟨?_, ?_, ?_, ?_⟩
  · have h := aggregate_loop_spec (collect_errors results) []
    simpa [aggregate_results] using h
  · rw [aggregate_results, aggregate_loop_spec (collect_errors results) []]
    constructor
    · intro h
      cases hio : firstIoError (collect_errors results) with
      | some e => rw [hio] at h; simp at h
      | none =>
        rw [hio] at h
        simp only [List.nil_append] at h
        by_cases hh : hashDetails (collect_errors results) = []
        · exact collect_errors_eq_nil.mp (errs_all_cases _ hio hh)
        · rw [if_neg hh] at h; simp at h
    · intro h
      have hnil : collect_errors results = [] := collect_errors_eq_nil.mpr h
      rw [hnil]
      simp [firstIoError, hashDetails]
  · intro transferOkRes md5f contents existsF renameRes files htr
    subst htr
    refine ⟨rfl, ?_⟩
    show (download_files_run (Except.ok ()) md5f contents existsF renameRes
        files).1 = _
    unfold download_files_run
    simp only [List.map_map]
    rfl
  · intro md5f contents existsF f d h
    unfold check_file_checksum at h
    cases hex : existsF f.target with
    | false =>
      rw [hex] at h
      simp at h
    | true =>
      rw [hex] at h
      simp only [Bool.not_true, Bool.false_eq_true, if_false] at h
      cases hcs : f.check_sum with
      | none =>
        rw [hcs] at h
        simp [do_file_matches_checksum] at h
      | md5 expected =>
        rw [hcs] at h
        cases hcont : contents f.target with
        | error e =>
          simp [do_file_matches_checksum, md5_hash_check_file, hcont] at h
        | ok bytes =>
          simp only [do_file_matches_checksum, md5_hash_check_file, hcont] at h
          by_cases heq : base64Encode (md5f bytes) =
              BinaryRepr.to_base64 expected
          · rw [if_pos heq] at h
            simp at h
          · rw [if_neg heq] at h
            simp only [Except.error.injEq, CheckHashError.hashError.injEq] at h
            refine ⟨expected, bytes, rfl, rfl, ?_, fun hc => heq hc⟩
            rw [← h]
            rfl

/-! ## C1 — promotion only after verified transfer -/

/-- C1: in both batch downloads (`download_files_http11` and
`download_files_http2`), a final destination path is written only by a rename
from that request's temporary path, and that rename happens only after the
transfer phase completed without error and the checksum verification of the
temporary file returned Ok (`CheckSum::None` verifies trivially): when the
transfer phase returns an error, the function returns it with an empty
filesystem trace — no rename is performed and no destination file is
promoted; every rename in the trace of a successful transfer phase targets
`f.target` from exactly `generate_tmp_file f`'s path for some requested `f`
whose temporary file passed verification. -/
theorem C1_promotion_only_after_verify (transferRes : Except DlError Unit)
    (md5f : List Nat → List Nat)
    (contents : FPath → Except (List Char) (List Nat))
    (existsF : FPath → Bool)
    (renameRes : FPath → FPath → Except (List Char) Unit)
    (files : List FileToDl) :
    (∀ e, transferRes = .error e →
       download_files_http11 transferRes md5f contents existsF renameRes files
           = (.error e, [])
       ∧ download_files_http2 transferRes md5f contents existsF renameRes files
           = (.error e, []))
    ∧ download_files_http11 transferRes md5f contents existsF renameRes files
        = download_files_http2 transferRes md5f contents existsF renameRes files
    ∧ (∀ ev, ev ∈ (download_files_http11 transferRes md5f contents existsF
          renameRes files).2 →
        ∃ f, f ∈ files ∧ ev = .rename (generate_tmp_file f).target f.target
          ∧ check_file_checksum md5f contents existsF (generate_tmp_file f)
              = .ok ())
    ∧ (∀ p, do_file_matches_checksum md5f contents .none p = .ok ()) := by
  refine ⟨?_, rfl, ?_, fun p => rfl⟩
  · intro e he
    subst he
    exact ⟨rfl, rfl⟩
  · intro ev hev
    cases transferRes with
    | error e =>
      simp only [download_files_http11, download_files_run] at hev
      simp at hev
    | ok u =>
      cases u
      simp only [download_files_http11, download_files_run,
        zip_generate_tmp_files, List.map_map, List.mem_flatten,
        List.mem_map, Function.comp_apply] at hev
      obtain ⟨l, ⟨f, hf, hl⟩, hev⟩ := hev
      subst hl
      refine ⟨f, hf, ?_⟩
      unfold check_hash_and_rename at hev
      cases hchk : check_file_checksum md5f contents existsF
          (generate_tmp_file f) with
      | error err =>
        simp only [hchk] at hev
        simp at hev
      | ok u2 =>
        cases u2
        simp only [hchk] at hev
        cases hrn : renameRes (generate_tmp_file f).target f.target with
        | ok u3 =>
          cases u3
          simp only [hrn] at hev
          simp at hev
          exact ⟨hev, rfl⟩
        | error e2 =>
          simp only [hrn] at hev
          simp at hev
          exact ⟨hev, rfl⟩

/-! ## C6 — digest representation round-trips (corrected) -/

theorem hexv_hexc : ∀ n, n < 16 → hexv (hexc n) = some n := by decide

theorem hexEncode_cons (b : Nat) (rest : List Nat) :
    hexEncode (b :: rest) = hexc (b / 16) :: hexc (b % 16) :: hexEncode rest := by
  simp [hexEncode]

theorem hexDecode_hexEncode (v : List Nat) (h : ∀ b ∈ v, b < 256) :
    hexDecode (hexEncode v) = .ok v := by
  induction v with
  | nil => rfl
  | cons b rest ih =>
    have hb : b < 256 := h b (List.mem_cons_self b rest)
    have e1 := hexv_hexc (b / 16) (by omega)
    have e2 := hexv_hexc (b % 16) (by omega)
    rw [hexEncode_cons]
    simp only [hexDecode, e1, e2]
    rw [ih fun x hx => h x (List.mem_cons_of_mem b hx)]
    show Except.ok ((b / 16 * 16 + b % 16) :: rest) = Except.ok (b :: rest)
    have hbid : b / 16 * 16 + b % 16 = b := by omega
    rw [hbid]

theorem b64v_b64c : ∀ n, n < 64 → b64v (b64c n) = some n := by decide

theorem b64c_ne_pad : ∀ n, n < 64 → b64c n ≠ '=' := by decide

theorem base64Decode_base64Encode :
    ∀ (k : Nat) (v : List Nat), v.length ≤ k → (∀ b ∈ v, b < 256) →
      base64Decode (base64Encode v) = .ok v := by
  intro k
  induction k with
  | zero =>
    intro v hl _
    have : v = [] := List.length_eq_zero.mp (Nat.le_zero.mp hl)
    subst this
    rfl
  | succ k ih =>
    intro v hl h
    match v with
    | [] => rfl
    | [a] =>
      have ha : a < 256 := h a (by simp)
      have e0 := b64v_b64c (a / 4) (by omega)
      have e1 := b64v_b64c (a % 4 * 16) (by omega)
      simp only [base64Encode, base64Decode, e0, e1, if_true, true_and,
        and_true]
      rw [if_pos (show a % 4 * 16 % 16 = 0 by omega)]
      simp only [Except.ok.injEq, List.cons.injEq, and_true]
      omega
    | [a, b] =>
      have ha : a < 256 := h a (by simp)
      have hb : b < 256 := h b (by simp)
      have e0 := b64v_b64c (a / 4) (by omega)
      have e1 := b64v_b64c (a % 4 * 16 + b / 16) (by omega)
      have e2 := b64v_b64c (b % 16 * 4) (by omega)
      have ne2 := b64c_ne_pad (b % 16 * 4) (by omega)
      simp only [base64Encode, base64Decode, e0, e1]
      rw [if_neg ne2]
      simp only [e2, if_true, true_and, and_true]
      rw [if_pos (show b % 16 * 4 % 4 = 0 by omega)]
      simp only [Except.ok.injEq, List.cons.injEq, and_true]
      exact ⟨by omega, by omega⟩
    | a :: b :: c :: rest =>
      have ha : a < 256 := h a (by simp)
      have hb : b < 256 := h b (by simp)
      have hc : c < 256 := h c (by simp)
      have e0 := b64v_b64c (a / 4) (by omega)
      have e1 := b64v_b64c (a % 4 * 16 + b / 16) (by omega)
      have e2 := b64v_b64c (b % 16 * 4 + c / 64) (by omega)
      have e3 := b64v_b64c (c % 64) (by omega)
      have ne2 := b64c_ne_pad (b % 16 * 4 + c / 64) (by omega)
      have ne3 := b64c_ne_pad (c % 64) (by omega)
      have hrest : base64Decode (base64Encode rest) = .ok rest := by
        refine ih rest ?_ fun x hx => h x (by simp [hx])
        simp only [List.length_cons] at hl
        omega
      simp only [base64Encode, base64Decode, e0, e1]
      rw [if_neg ne2]
      simp only [e2]
      rw [if_neg ne3]
      simp only [e3]
      rw [hrest]
      show Except.ok ((a / 4 * 4 + (a % 4 * 16 + b / 16) / 16) ::
          ((a % 4 * 16 + b / 16) % 16 * 16 + (b % 16 * 4 + c / 64) / 4) ::
          ((b % 16 * 4 + c / 64) % 4 * 64 + c % 64) :: rest) =
        Except.ok (a :: b :: c :: rest)
      have f1 : a / 4 * 4 + (a % 4 * 16 + b / 16) / 16 = a := by omega
      have f2 : (a % 4 * 16 + b / 16) % 16 * 16 + (b % 16 * 4 + c / 64) / 4 = b := by
        omega
      have f3 : (b % 16 * 4 + c / 64) % 4 * 64 + c % 64 = c := by omega
      rw [f1, f2, f3]

theorem byteBitsLSB_length (n : Nat) : (byteBitsLSB n).length = 8 := by
  simp [byteBitsLSB]

set_option maxRecDepth 8000 in
theorem chunkVal_byteBitsLSB : ∀ n, n < 256 → chunkVal (byteBitsLSB n) 0 = .ok n := by
  decide

theorem chunkList_append_full {α : Type} (c l : List α) (hc : c.length = 8) :
    chunkList 8 (c ++ l) = c :: chunkList 8 l := by
  cases c with
  | nil => simp at hc
  | cons x c1 =>
    have h1 : c1.length = 7 := by
      simp only [List.length_cons] at hc
      omega
    rw [List.cons_append, chunkList_cons]
    have h8 : (8 : Nat) - 1 = 7 := rfl
    rw [h8, ← h1, List.take_left, List.drop_left]

theorem chunkList8_flatMap_bits (v : List Nat) :
    chunkList 8 (v.flatMap byteBitsLSB) = v.map byteBitsLSB := by
  induction v with
  | nil => simp [chunkList]
  | cons b rest ih =>
    rw [List.flatMap_cons, chunkList_append_full _ _ (byteBitsLSB_length b), ih,
      List.map_cons]

theorem mapM_chunkVal (v : List Nat) (h : ∀ b ∈ v, b < 256) :
    (v.map byteBitsLSB).mapM (fun c => chunkVal c 0) = .ok v := by
  induction v with
  | nil => rfl
  | cons b rest ih =>
    have hb : b < 256 := h b (List.mem_cons_self b rest)
    rw [List.map_cons, List.mapM_cons, chunkVal_byteBitsLSB b hb,
      ih fun x hx => h x (List.mem_cons_of_mem b hx)]
    rfl

theorem from_bin_to_bin (v : List Nat) (h : ∀ b ∈ v, b < 256) :
    from_bin (BinaryRepr.to_bin ⟨v, .bin⟩) = .ok v.reverse := by
  unfold from_bin BinaryRepr.to_bin
  simp only [List.reverse_reverse]
  rw [chunkList8_flatMap_bits, mapM_chunkVal v h]
  rfl

/-- C6 counterexample: the bit-string representation does NOT round-trip for
multi-byte vectors: `to_bin` serialises the byte at index 0 into the least
significant bit positions while `from_bin` reads the most significant chunk
into index 0, so `from_bin(to_bin([0, 1]))` yields `[1, 0]`, not `[0, 1]`. -/
theorem C6_counterexample :
    from_bin (BinaryRepr.to_bin ⟨[0, 1], .bin⟩) ≠ .ok [0, 1] := by
  rw [from_bin_to_bin [0, 1] (by decide)]
  decide

/-- C6 amended: for every byte vector `v`, constructing `BinaryRepr` from
`to_hex(v)` as Hex decodes back to `v`, and constructing it from
`to_base64(v)` as Base64 decodes back to `v`; the bit-string representation
however satisfies `from_bin(to_bin(v)) = reverse(v)` — the byte order is
reversed, so the round-trip restores `v` itself only for vectors that are
palindromes (in particular any vector of at most one byte). -/
theorem C6_codec_roundtrip (v : List Nat) (h : ∀ b ∈ v, b < 256) :
    (BinaryRepr.new (BinaryRepr.to_hex ⟨v, .hex⟩) .hex).map BinaryRepr.decode
        = .ok v
    ∧ (BinaryRepr.new (BinaryRepr.to_base64 ⟨v, .base64⟩) .base64).map
        BinaryRepr.decode = .ok v
    ∧ from_bin (BinaryRepr.to_bin ⟨v, .bin⟩) = .ok v.reverse := by
  refine ⟨?_, ?_, from_bin_to_bin v h⟩
  · unfold BinaryRepr.new BinaryRepr.to_hex
    rw [show (⟨v, BinaryReprFormat.hex⟩ : BinaryRepr).value = v from rfl,
      hexDecode_hexEncode v h]
    rfl
  · unfold BinaryRepr.new BinaryRepr.to_base64
    rw [show (⟨v, BinaryReprFormat.base64⟩ : BinaryRepr).value = v from rfl,
      base64Decode_base64Encode v.length v le_rfl h]
    rfl

/-- C6 witness: the round-trips evaluated on the two-byte vector
`[1, 255]`. -/
theorem C6_codec_roundtrip_witness :
    (BinaryRepr.new (BinaryRepr.to_hex ⟨[1, 255], .hex⟩) .hex).map
        BinaryRepr.decode = .ok [1, 255]
    ∧ (BinaryRepr.new (BinaryRepr.to_base64 ⟨[1, 255], .base64⟩) .base64).map
        BinaryRepr.decode = .ok [1, 255]
    ∧ from_bin (BinaryRepr.to_bin ⟨[1, 255], .bin⟩) = .ok [255, 1] :=
  C6_codec_roundtrip [1, 255] (by decide)

end FileDownload
